import Mathlib

/-!
Shallow embedding of the `arcat` atmospheric-river categorization package.

Intensity (IVT) values are embedded as rationals, categories as integers.
The helper functions follow `src/arcat/.ipynb_checkpoints/utils-checkpoint.py`
(the only `utils` module in the repository; `core.py` imports `.utils`), the
two schemes follow `src/arcat/core.py`, and the four-output variants from
`src/arcat/.ipynb_checkpoints/core-checkpoint.py` live in the `Checkpoint`
namespace.

The three Python loops over a category sequence (peak collapse, duration
adjustment, duration broadcasting) all share one skeleton: walk the list,
remember the segment begun at the `start` marker, and flush the collected
segment whenever a zero (or the end of the list) is reached.  `runScan`
embeds that skeleton once, the accumulator `seg` playing the role of the
slice `arr[start:i]`; each loop is `runScan` applied to its own flush step.
-/

/-- `int(24 / time_resolution_hours)` of `utils.compute_steps_per_day`;
for positive arguments Python's truncation agrees with `Nat` division. -/
def compute_steps_per_day (time_resolution_hours : ℕ) : ℕ :=
  24 / time_resolution_hours

/-- `np.clip(v, lo, hi)` on one element: `min hi (max lo v)`. -/
def np_clip (v lo hi : ℤ) : ℤ :=
  min hi (max lo v)

/-- One element of `utils.bin_ivt`: `np.floor(v / bin_width)` then
`np.clip(_, 0, max_category)`, truncated to an integer. -/
def bin_val (v : ℚ) (bin_width : ℚ) (max_category : ℤ) : ℤ :=
  np_clip ⌊v / bin_width⌋ 0 max_category

/-- `utils.bin_ivt`, vectorized over the intensity sequence. -/
def bin_ivt (ivt_array : List ℚ) (bin_width : ℚ) (max_category : ℤ) : List ℤ :=
  ivt_array.map (fun v => bin_val v bin_width max_category)

/-- The spec's wording of §4.1, for comparison with the numpy form: the bin
index "clipped into [0, max_category]", written as interval clamping. -/
def clampSpec (max_category c : ℤ) : ℤ :=
  if c < 0 then 0 else if max_category < c then max_category else c

/-- The loop of `utils.cumulative_reset`, with the running sum explicit:
where the mask is false the sum resets to `0.0`, otherwise the current
value is added; each output entry is the sum after that step. -/
def cumulativeResetGo (running_sum : ℚ) : List ℚ → List Bool → List ℚ
  | [], _ => []
  | _ :: _, [] => []
  | v :: vs, m :: ms =>
    let r := if m then running_sum + v else 0
    r :: cumulativeResetGo r vs ms

/-- `utils.cumulative_reset`: cumulative sum that resets where the mask is
false; the running sum starts at `0.0`. -/
def cumulative_reset (values : List ℚ) (mask : List Bool) : List ℚ :=
  cumulativeResetGo 0 values mask

/-- The shared loop skeleton of `max_bounded_replace`,
`_apply_duration_rule` and its checkpoint variant: scan the category list
left to right collecting the current nonzero segment `seg` (the slice
`arr[start:i]` of the Python loops); on a zero, emit the flushed segment
followed by the zero's own output `z`; at the end of the list flush the
trailing open segment (the `if start is not None` epilogue). -/
def runScan {β : Type} (flush : List ℤ → List β) (z : β) :
    List ℤ → List ℤ → List β
  | seg, [] => flush seg
  | seg, x :: xs =>
    if x = 0 then flush seg ++ z :: runScan flush z [] xs
    else runScan flush z (seg ++ [x]) xs

/-- `np.max` over a nonempty slice with head `x` and tail `t`. -/
def segMax (x : ℤ) (t : List ℤ) : ℤ :=
  t.foldl max x

/-- Flush step of `utils.max_bounded_replace`:
`arr[start:end] = np.max(arr[start:end])` on the collected segment. -/
def mbrFlush : List ℤ → List ℤ
  | [] => []
  | y :: t => List.replicate t.length.succ (segMax y t)

/-- `utils.max_bounded_replace`: replace each maximal nonzero segment by its
maximum value; zeros separate segments and pass through unchanged. -/
def max_bounded_replace (arr : List ℤ) : List ℤ :=
  runScan mbrFlush 0 [] arr

/-- `core._adjust_segment` on the slice `arr[start:end]` it mutates:
subtract 1 everywhere if the duration is under one day, add 1 everywhere if
it is at least two days, otherwise leave the slice alone. -/
def _adjust_segment (seg : List ℤ) (duration : ℕ) (steps_per_day : ℕ) : List ℤ :=
  if duration < steps_per_day then seg.map (fun v => v - 1)
  else if 2 * steps_per_day ≤ duration then seg.map (fun v => v + 1)
  else seg

/-- Flush step of `core._apply_duration_rule`: a completed event segment is
adjusted with its own length as the duration. -/
def adrFlush (steps_per_day : ℕ) (seg : List ℤ) : List ℤ :=
  _adjust_segment seg seg.length steps_per_day

/-- The scan of `core._apply_duration_rule` before the final `np.clip`:
each maximal nonzero run (a run may end at the end of the sequence) is
passed through `_adjust_segment` with its own length as duration; zeros
keep their value `0` from the untouched copy. -/
def applyDurationCore (steps_per_day : ℕ) (categories : List ℤ) : List ℤ :=
  runScan (adrFlush steps_per_day) 0 [] categories

/-- `core._apply_duration_rule`: the duration scan followed by
`np.clip(final, 0, max_category)` over the whole sequence. -/
def _apply_duration_rule (categories : List ℤ) (steps_per_day : ℕ)
    (max_category : ℤ) : List ℤ :=
  (applyDurationCore steps_per_day categories).map
    (fun v => np_clip v 0 max_category)

/-- Flush step of the checkpoint `duration_arr`: the run's duration (as a
float) broadcast over the run. -/
def durFlush (seg : List ℤ) : List ℚ :=
  List.replicate seg.length (seg.length : ℚ)

/-- `duration_arr` of the checkpoint `_apply_duration_rule`: each run's
duration broadcast over its timesteps, `0.0` outside runs. -/
def duration_seq (categories : List ℤ) : List ℚ :=
  runScan durFlush 0 [] categories

/-- `core.AR_categorization_scheme` (event-based, as released in
`src/arcat/core.py`): bin, collapse each event to its peak, apply the
duration rule, and return the pair `(final_categories, cumulative_ivt)`. -/
def AR_categorization_scheme (ivt_array : List ℚ) (time_resolution_hours : ℕ)
    (bin_width : ℚ) (max_category : ℤ) : List ℤ × List ℚ :=
  let steps_per_day := compute_steps_per_day time_resolution_hours
  let original_ivt := ivt_array
  let categories := max_bounded_replace (bin_ivt ivt_array bin_width max_category)
  let final_categories := _apply_duration_rule categories steps_per_day max_category
  let mask := final_categories.map (fun c => decide (0 < c))
  (final_categories, cumulative_reset original_ivt mask)

/-- `core.AR_categorization_evolution_scheme` (as released in
`src/arcat/core.py`): same as the event scheme but without the peak
collapse. -/
def AR_categorization_evolution_scheme (ivt_array : List ℚ)
    (time_resolution_hours : ℕ) (bin_width : ℚ) (max_category : ℤ) :
    List ℤ × List ℚ :=
  let steps_per_day := compute_steps_per_day time_resolution_hours
  let original_ivt := ivt_array
  let categories := bin_ivt ivt_array bin_width max_category
  let final_categories := _apply_duration_rule categories steps_per_day max_category
  let mask := final_categories.map (fun c => decide (0 < c))
  (final_categories, cumulative_reset original_ivt mask)

namespace Checkpoint

/-- Checkpoint `_apply_duration_rule`: same adjusted categories, but also
returns the per-timestep duration array. -/
def _apply_duration_rule (categories : List ℤ) (steps_per_day : ℕ)
    (max_category : ℤ) : List ℤ × List ℚ :=
  ((applyDurationCore steps_per_day categories).map
      (fun v => np_clip v 0 max_category),
    duration_seq categories)

/-- Checkpoint `AR_categorization_scheme` (event-based, four outputs):
`(final_categories, cumulative_ivt, ivt_event, duration_event)` where
`ivt_event = np.where(mask, original_ivt, 0)`. -/
def AR_categorization_scheme (ivt_array : List ℚ) (time_resolution_hours : ℕ)
    (bin_width : ℚ) (max_category : ℤ) :
    List ℤ × List ℚ × List ℚ × List ℚ :=
  let steps_per_day := compute_steps_per_day time_resolution_hours
  let original_ivt := ivt_array
  let categories := max_bounded_replace (bin_ivt ivt_array bin_width max_category)
  let fd := Checkpoint._apply_duration_rule categories steps_per_day max_category
  let mask := fd.1.map (fun c => decide (0 < c))
  let cumulative_ivt := cumulative_reset original_ivt mask
  let ivt_event := List.zipWith (fun m v => if m then v else 0) mask original_ivt
  (fd.1, cumulative_ivt, ivt_event, fd.2)

/-- Checkpoint `AR_categorization_evolution_scheme` (four outputs, no peak
collapse). -/
def AR_categorization_evolution_scheme (ivt_array : List ℚ)
    (time_resolution_hours : ℕ) (bin_width : ℚ) (max_category : ℤ) :
    List ℤ × List ℚ × List ℚ × List ℚ :=
  let steps_per_day := compute_steps_per_day time_resolution_hours
  let original_ivt := ivt_array
  let categories := bin_ivt ivt_array bin_width max_category
  let fd := Checkpoint._apply_duration_rule categories steps_per_day max_category
  let mask := fd.1.map (fun c => decide (0 < c))
  let cumulative_ivt := cumulative_reset original_ivt mask
  let ivt_event := List.zipWith (fun m v => if m then v else 0) mask original_ivt
  (fd.1, cumulative_ivt, ivt_event, fd.2)

end Checkpoint

section ScanLemmas

variable {β : Type}

theorem runScan_nil (f : List ℤ → List β) (z : β) (seg : List ℤ) :
    runScan f z seg [] = f seg := rfl

theorem runScan_zero_cons (f : List ℤ → List β) (z : β) (seg xs : List ℤ) :
    runScan f z seg (0 :: xs) = f seg ++ z :: runScan f z [] xs := by
  simp [runScan]

theorem runScan_cons_of_ne (f : List ℤ → List β) (z : β) (seg : List ℤ)
    (x : ℤ) (xs : List ℤ) (hx : x ≠ 0) :
    runScan f z seg (x :: xs) = runScan f z (seg ++ [x]) xs := by
  simp [runScan, hx]

theorem runScan_append_nonzero (f : List ℤ → List β) (z : β) :
    ∀ run : List ℤ, (∀ y ∈ run, y ≠ 0) → ∀ seg rest : List ℤ,
      runScan f z seg (run ++ rest) = runScan f z (seg ++ run) rest := by
  intro run
  induction run with
  | nil => intro _ seg rest; simp
  | cons x t ih =>
    intro h seg rest
    have hx : x ≠ 0 := h x (by simp)
    rw [List.cons_append, runScan_cons_of_ne f z seg x _ hx,
      ih (fun y hy => h y (by simp [hy]))]
    simp

theorem runScan_split (f : List ℤ → List β) (z : β) (hf0 : f [] = []) :
    ∀ p : List ℤ, p.getLast? = some 0 → ∀ seg rest : List ℤ,
      runScan f z seg (p ++ rest) = runScan f z seg p ++ runScan f z [] rest := by
  intro p
  induction p with
  | nil => intro h; simp at h
  | cons a p' ih =>
    intro h seg rest
    cases p' with
    | nil =>
      simp only [List.getLast?_singleton, Option.some.injEq] at h
      subst h
      rw [List.cons_append, runScan_zero_cons, runScan_zero_cons, runScan_nil,
        hf0, List.append_assoc]
      simp
    | cons b p'' =>
      rw [List.getLast?_cons_cons] at h
      by_cases ha : a = 0
      · subst ha
        rw [List.cons_append, runScan_zero_cons, runScan_zero_cons,
          ih h [] rest, List.append_assoc]
        simp
      · rw [List.cons_append, runScan_cons_of_ne f z seg a _ ha,
          runScan_cons_of_ne f z seg a _ ha, ih h (seg ++ [a]) rest]

theorem runScan_length (f : List ℤ → List β) (z : β)
    (hf : ∀ s, (f s).length = s.length) :
    ∀ l seg : List ℤ, (runScan f z seg l).length = seg.length + l.length := by
  intro l
  induction l with
  | nil => intro seg; simp [runScan_nil, hf]
  | cons x xs ih =>
    intro seg
    by_cases hx : x = 0
    · subst hx
      rw [runScan_zero_cons]
      simp [hf, ih]
    · rw [runScan_cons_of_ne f z seg x _ hx, ih]
      simp
      omega

/-- Any list headed by a nonzero element splits into its leading nonzero run
and the rest. -/
theorem nonzero_run_decomp (x : ℤ) (t : List ℤ) :
    x :: t = (x :: t.takeWhile (fun y => y ≠ 0)) ++ t.dropWhile (fun y => y ≠ 0) := by
  simp [List.takeWhile_append_dropWhile]

theorem mem_takeWhile_ne (t : List ℤ) :
    ∀ y ∈ t.takeWhile (fun y => y ≠ 0), y ≠ 0 := by
  intro y hy
  have := List.mem_takeWhile_imp hy
  simpa using this

theorem dropWhile_ne_shape (t : List ℤ) :
    t.dropWhile (fun y => y ≠ 0) = [] ∨
      ∃ r, t.dropWhile (fun y => y ≠ 0) = 0 :: r := by
  have h := List.head?_dropWhile_not (fun y : ℤ => decide (y ≠ 0)) t
  rcases hd : t.dropWhile (fun y : ℤ => y ≠ 0) with _ | ⟨a, r⟩
  · left; rfl
  · right
    rw [hd] at h
    simp only [List.head?_cons] at h
    simp at h
    exact ⟨r, by rw [h]⟩

theorem length_dropWhile_ne_le (t : List ℤ) :
    (t.dropWhile (fun y => y ≠ 0)).length ≤ t.length :=
  (List.dropWhile_sublist _).length_le

/-- Induction over a category list by its zero / nonzero-run structure:
the empty list, a leading zero, or a leading nonzero element whose whole
run is consumed down to `dropWhile`. -/
theorem runs_induction (P : List ℤ → Prop) (h0 : P [])
    (hz : ∀ t, P t → P (0 :: t))
    (hr : ∀ x t, x ≠ 0 → P (t.dropWhile (fun y => y ≠ 0)) → P (x :: t)) :
    ∀ l : List ℤ, P l := by
  have main : ∀ n, ∀ l : List ℤ, l.length ≤ n → P l := by
    intro n
    induction n with
    | zero =>
      intro l hl
      have : l = [] := List.length_eq_zero.mp (Nat.le_zero.mp hl)
      simpa [this] using h0
    | succ n ih =>
      intro l hl
      cases l with
      | nil => exact h0
      | cons x t =>
        by_cases hx : x = 0
        · subst hx
          exact hz t (ih t (by simpa using Nat.le_of_succ_le_succ hl))
        · refine hr x t hx (ih _ ?_)
          calc (t.dropWhile (fun y => y ≠ 0)).length ≤ t.length :=
                length_dropWhile_ne_le t
            _ ≤ n := by simpa using Nat.le_of_succ_le_succ hl
  exact fun l => main l.length l le_rfl

theorem runScan_run_rest {β : Type} (f : List ℤ → List β) (z : β)
    (hf0 : f [] = []) (run s seg : List ℤ)
    (hrun : ∀ y ∈ run, y ≠ 0) (hs : s = [] ∨ s.head? = some 0) :
    runScan f z seg (run ++ s) = f (seg ++ run) ++ runScan f z [] s := by
  rw [runScan_append_nonzero f z run hrun seg s]
  rcases hs with rfl | hs
  · simp [runScan_nil, hf0]
  · cases s with
    | nil => simp at hs
    | cons a s' =>
      simp only [List.head?_cons, Option.some.injEq] at hs
      subst hs
      rw [runScan_zero_cons, runScan_zero_cons, hf0]
      simp

theorem runScan_decomp {β : Type} (f : List ℤ → List β) (z : β)
    (hf0 : f [] = []) (p run s : List ℤ)
    (hp : p = [] ∨ p.getLast? = some 0)
    (hrun : ∀ y ∈ run, y ≠ 0) (hs : s = [] ∨ s.head? = some 0) :
    runScan f z [] (p ++ run ++ s) =
      runScan f z [] p ++ f run ++ runScan f z [] s := by
  rcases hp with rfl | hp
  · rw [List.nil_append, runScan_run_rest f z hf0 run s [] hrun hs,
      runScan_nil, hf0]
    simp
  · rw [List.append_assoc, runScan_split f z hf0 p hp [] (run ++ s),
      runScan_run_rest f z hf0 run s [] hrun hs]
    simp

end ScanLemmas

theorem le_segMax_init : ∀ (t : List ℤ) (x : ℤ), x ≤ segMax x t := by
  intro t
  induction t with
  | nil => intro x; exact le_refl x
  | cons a t ih =>
    intro x
    calc x ≤ max x a := le_max_left x a
      _ ≤ segMax (max x a) t := ih (max x a)
      _ = segMax x (a :: t) := rfl

theorem segMax_eq_or_mem : ∀ (t : List ℤ) (x : ℤ),
    segMax x t = x ∨ segMax x t ∈ t := by
  intro t
  induction t with
  | nil => intro x; left; rfl
  | cons a t ih =>
    intro x
    have h : segMax x (a :: t) = segMax (max x a) t := rfl
    rcases ih (max x a) with h1 | h1
    · rcases max_choice x a with h2 | h2
      · left; rw [h, h1, h2]
      · right; rw [h, h1, h2]; exact List.mem_cons_self a t
    · right
      rw [h]
      exact List.mem_cons_of_mem a h1

theorem mem_le_segMax : ∀ (t : List ℤ) (x y : ℤ), y ∈ t → y ≤ segMax x t := by
  intro t
  induction t with
  | nil => intro x y hy; simp at hy
  | cons a t ih =>
    intro x y hy
    rcases List.mem_cons.mp hy with rfl | hy
    · calc y ≤ max x y := le_max_right x y
        _ ≤ segMax (max x y) t := le_segMax_init t (max x y)
        _ = segMax x (y :: t) := rfl
    · exact ih (max x a) y hy

theorem segMax_replicate : ∀ (j : ℕ) (m : ℤ), segMax m (List.replicate j m) = m := by
  intro j
  induction j with
  | zero => intro m; rfl
  | succ j ih =>
    intro m
    have : segMax m (List.replicate (j + 1) m) = segMax (max m m) (List.replicate j m) := by
      rw [List.replicate_succ]; rfl
    rw [this, max_self, ih]

theorem mbrFlush_nil : mbrFlush [] = [] := rfl

theorem mbrFlush_length (seg : List ℤ) : (mbrFlush seg).length = seg.length := by
  cases seg <;> simp [mbrFlush]

theorem mbrFlush_replicate (j : ℕ) (m : ℤ) :
    mbrFlush (List.replicate (j + 1) m) = List.replicate (j + 1) m := by
  rw [List.replicate_succ, mbrFlush, segMax_replicate]
  simp [List.replicate_succ]

theorem adrFlush_nil (spd : ℕ) : adrFlush spd [] = [] := by
  simp only [adrFlush, _adjust_segment]
  split
  · rfl
  · split <;> rfl

theorem adrFlush_length (spd : ℕ) (seg : List ℤ) :
    (adrFlush spd seg).length = seg.length := by
  simp only [adrFlush, _adjust_segment]
  split
  · simp
  · split <;> simp

theorem durFlush_nil : durFlush [] = [] := rfl

theorem durFlush_length (seg : List ℤ) : (durFlush seg).length = seg.length := by
  simp [durFlush]

theorem max_bounded_replace_length (l : List ℤ) :
    (max_bounded_replace l).length = l.length := by
  have := runScan_length mbrFlush 0 mbrFlush_length l []
  simpa [max_bounded_replace] using this

theorem applyDurationCore_length (spd : ℕ) (l : List ℤ) :
    (applyDurationCore spd l).length = l.length := by
  have := runScan_length (adrFlush spd) 0 (adrFlush_length spd) l []
  simpa [applyDurationCore] using this

theorem apply_duration_rule_length (l : List ℤ) (spd : ℕ) (mc : ℤ) :
    (_apply_duration_rule l spd mc).length = l.length := by
  simp [_apply_duration_rule, applyDurationCore_length]

theorem duration_seq_length (l : List ℤ) : (duration_seq l).length = l.length := by
  have := runScan_length durFlush 0 durFlush_length l []
  simpa [duration_seq] using this

theorem max_bounded_replace_zero_cons (t : List ℤ) :
    max_bounded_replace (0 :: t) = 0 :: max_bounded_replace t := by
  rw [max_bounded_replace, runScan_zero_cons, mbrFlush_nil, max_bounded_replace]
  simp

theorem max_bounded_replace_run_cons (x : ℤ) (t : List ℤ) (hx : x ≠ 0) :
    max_bounded_replace (x :: t) =
      mbrFlush (x :: t.takeWhile (fun y => y ≠ 0)) ++
        max_bounded_replace (t.dropWhile (fun y => y ≠ 0)) := by
  rw [max_bounded_replace, max_bounded_replace]
  nth_rewrite 1 [nonzero_run_decomp x t]
  rw [runScan_run_rest mbrFlush 0 mbrFlush_nil _ _ []
    (by
      intro y hy
      rcases List.mem_cons.mp hy with rfl | hy
      · exact hx
      · exact mem_takeWhile_ne t y hy)
    (by
      rcases dropWhile_ne_shape t with h | ⟨r, h⟩
      · exact Or.inl h
      · exact Or.inr (by rw [h]; rfl))]
  simp

theorem max_bounded_replace_mem (l : List ℤ) :
    ∀ v ∈ max_bounded_replace l, v = 0 ∨ v ∈ l := by
  induction l using runs_induction with
  | h0 => intro v hv; simp [max_bounded_replace, runScan_nil, mbrFlush_nil] at hv
  | hz t ih =>
    intro v hv
    rw [max_bounded_replace_zero_cons] at hv
    rcases List.mem_cons.mp hv with rfl | hv
    · exact Or.inl rfl
    · rcases ih v hv with h | h
      · exact Or.inl h
      · exact Or.inr (List.mem_cons_of_mem 0 h)
  | hr x t hx ih =>
    intro v hv
    rw [max_bounded_replace_run_cons x t hx] at hv
    rcases List.mem_append.mp hv with hv | hv
    · right
      rw [mbrFlush] at hv
      have hv' := List.eq_of_mem_replicate hv
      rcases segMax_eq_or_mem (t.takeWhile (fun y => y ≠ 0)) x with h | h
      · rw [hv', h]; exact List.mem_cons_self x t
      · rw [hv']
        exact List.mem_cons_of_mem x ((List.takeWhile_sublist _).subset h)
    · rcases ih v hv with h | h
      · exact Or.inl h
      · exact Or.inr (List.mem_cons_of_mem x ((List.dropWhile_sublist _).subset h))

theorem max_bounded_replace_zero_pos (l : List ℤ) :
    ∀ i : ℕ, l[i]? = some 0 → (max_bounded_replace l)[i]? = some 0 := by
  induction l using runs_induction with
  | h0 => intro i h; simp at h
  | hz t ih =>
    intro i h
    rw [max_bounded_replace_zero_cons]
    cases i with
    | zero => simp
    | succ n =>
      simp only [List.getElem?_cons_succ] at h ⊢
      exact ih n h
  | hr x t hx ih =>
    intro i h
    rw [max_bounded_replace_run_cons x t hx]
    by_cases hlt : i < (t.takeWhile (fun y => y ≠ 0)).length + 1
    · exfalso
      rw [nonzero_run_decomp x t,
        List.getElem?_append_left (by simpa using hlt)] at h
      have hmem : (0 : ℤ) ∈ x :: t.takeWhile (fun y => y ≠ 0) :=
        List.getElem?_mem h
      rcases List.mem_cons.mp hmem with h0 | h0
      · exact hx h0.symm
      · exact mem_takeWhile_ne t 0 h0 rfl
    · push_neg at hlt
      have hflen : (mbrFlush (x :: t.takeWhile (fun y => y ≠ 0))).length =
          (t.takeWhile (fun y => y ≠ 0)).length + 1 := by
        simp [mbrFlush_length]
      rw [List.getElem?_append_right (by omega), hflen]
      rw [nonzero_run_decomp x t,
        List.getElem?_append_right (by simpa using hlt)] at h
      simp only [List.length_cons] at h
      exact ih _ h

theorem cumulativeResetGo_length :
    ∀ (vs : List ℚ) (ms : List Bool) (acc : ℚ),
      (cumulativeResetGo acc vs ms).length = min vs.length ms.length := by
  intro vs
  induction vs with
  | nil => intro ms acc; simp [cumulativeResetGo]
  | cons v vs ih =>
    intro ms acc
    cases ms with
    | nil => simp [cumulativeResetGo]
    | cons m ms =>
      simp only [cumulativeResetGo, List.length_cons, ih]
      omega

theorem cumulativeResetGo_getD :
    ∀ (vs : List ℚ) (ms : List Bool) (acc : ℚ) (i : ℕ),
      vs.length = ms.length → i < vs.length →
      (cumulativeResetGo acc vs ms).getD i 0 =
        if ms.getD i false then
          (if i = 0 then acc else (cumulativeResetGo acc vs ms).getD (i - 1) 0) +
            vs.getD i 0
        else 0 := by
  intro vs
  induction vs with
  | nil => intro ms acc i _ hi; simp at hi
  | cons v vs ih =>
    intro ms acc i hlen hi
    cases ms with
    | nil => simp at hlen
    | cons m ms =>
      simp only [cumulativeResetGo]
      cases i with
      | zero =>
        by_cases hm : m <;> simp [hm]
      | succ n =>
        have hcons : ∀ (r : ℚ) (tail : List ℚ),
            (r :: tail).getD n 0 = if n = 0 then r else tail.getD (n - 1) 0 := by
          intro r tail
          cases n <;> simp
        simp only [List.getD_cons_succ, List.getD_cons_zero, Nat.succ_ne_zero,
          if_false, Nat.succ_sub_one]
        rw [ih ms _ n (by simpa using hlen)
          (by exact Nat.lt_of_succ_lt_succ (by simpa using hi))]
        rw [hcons]

theorem cumulativeResetGo_zero :
    ∀ (vs : List ℚ) (ms : List Bool) (acc : ℚ) (i : ℕ),
      ms[i]? = some false → (cumulativeResetGo acc vs ms).getD i 0 = 0 := by
  intro vs
  induction vs with
  | nil => intro ms acc i _; simp [cumulativeResetGo]
  | cons v vs ih =>
    intro ms acc i h
    cases ms with
    | nil => simp at h
    | cons m ms =>
      cases i with
      | zero =>
        simp only [List.getElem?_cons_zero, Option.some.injEq] at h
        subst h
        simp [cumulativeResetGo]
      | succ n =>
        simp only [List.getElem?_cons_succ] at h
        simp only [cumulativeResetGo, List.getD_cons_succ]
        exact ih ms _ n h

theorem zipWith_mask_zero :
    ∀ (ms : List Bool) (vs : List ℚ) (i : ℕ), ms[i]? = some false →
      (List.zipWith (fun m v => if m then v else 0) ms vs).getD i 0 = 0 := by
  intro ms
  induction ms with
  | nil => intro vs i h; simp at h
  | cons m ms ih =>
    intro vs i h
    cases vs with
    | nil => simp [List.zipWith]
    | cons v vs =>
      cases i with
      | zero =>
        simp only [List.getElem?_cons_zero, Option.some.injEq] at h
        subst h
        simp
      | succ n =>
        simp only [List.getElem?_cons_succ] at h
        simp only [List.zipWith_cons_cons, List.getD_cons_succ]
        exact ih vs n h

/-- Shared step for both schemes: if the final category at `i` is zero, the
mask is false there, so the cumulative trace and the masked intensity both
read zero at `i`. -/
theorem mask_zero_outputs (final : List ℤ) (ivt : List ℚ) (i : ℕ)
    (h : final[i]? = some 0) :
    (cumulative_reset ivt (final.map fun c => decide (0 < c))).getD i 0 = 0 ∧
    (List.zipWith (fun m v => if m then v else 0)
      (final.map fun c => decide (0 < c)) ivt).getD i 0 = 0 := by
  have hm : (final.map fun c => decide (0 < c))[i]? = some false := by
    rw [List.getElem?_map, h]
    rfl
  exact ⟨cumulativeResetGo_zero ivt _ 0 i hm, zipWith_mask_zero _ ivt i hm⟩

example : max_bounded_replace [1, 2, 3, 0, 2, 1] = [3, 3, 3, 0, 2, 2] := by
  decide

example : _apply_duration_rule [1, 1, 0, 2, 2, 2, 2, 0] 4 6 = [0, 0, 0, 2, 2, 2, 2, 0] := by
  decide

example : duration_seq [1, 1, 0, 2, 2, 2, 2, 0] = [2, 2, 0, 4, 4, 4, 4, 0] := by
  norm_num [duration_seq, runScan, durFlush, List.replicate_succ]

example : cumulative_reset [100, 100, 0, 50] [true, true, false, true] =
    [100, 200, 0, 50] := by
  norm_num [cumulative_reset, cumulativeResetGo]

example : AR_categorization_scheme [300, 300, 0] 6 250 6 = ([0, 0, 0], [0, 0, 0]) := by
  norm_num [AR_categorization_scheme, bin_ivt, bin_val, np_clip,
    max_bounded_replace, runScan, mbrFlush, segMax, _apply_duration_rule,
    applyDurationCore, adrFlush, _adjust_segment, compute_steps_per_day,
    cumulative_reset, cumulativeResetGo]

example : Checkpoint.AR_categorization_scheme [300, 300, 0] 6 250 6 =
    ([0, 0, 0], [0, 0, 0], [0, 0, 0], [2, 2, 0]) := by
  norm_num [Checkpoint.AR_categorization_scheme, Checkpoint._apply_duration_rule,
    bin_ivt, bin_val, np_clip, max_bounded_replace, runScan, mbrFlush, segMax,
    applyDurationCore, adrFlush, _adjust_segment, compute_steps_per_day,
    cumulative_reset, cumulativeResetGo, duration_seq, durFlush,
    List.replicate_succ]

theorem bin_val_eq_clampSpec (v : ℚ) (bin_width : ℚ) (max_category : ℤ)
    (hmc : 0 ≤ max_category) :
    bin_val v bin_width max_category = clampSpec max_category ⌊v / bin_width⌋ := by
  simp only [bin_val, np_clip, clampSpec]
  omega

/-- C3: the Binner maps every intensity value `v` (with `bin_width > 0`,
`max_category ≥ 0`) to `⌊v / bin_width⌋` clipped into `[0, max_category]`,
elementwise over the sequence; zero intensity maps to category 0. -/
theorem C3_binner_floor_clip (l : List ℚ) (bin_width : ℚ) (max_category : ℤ)
    (hbw : 0 < bin_width) (hmc : 0 ≤ max_category) :
    bin_ivt l bin_width max_category =
      l.map (fun v => clampSpec max_category ⌊v / bin_width⌋) ∧
    bin_val 0 bin_width max_category = 0 := by
  constructor
  · simp only [bin_ivt]
    exact List.map_congr_left
      (fun v _ => bin_val_eq_clampSpec v bin_width max_category hmc)
  · rw [bin_val_eq_clampSpec 0 bin_width max_category hmc]
    norm_num [clampSpec]
    intro h
    omega

theorem C3_binner_floor_clip_witness :
    (0 : ℚ) < 250 ∧ (0 : ℤ) ≤ 6 ∧
    (bin_ivt [0, 300, 600] 250 6 =
        ([0, 300, 600] : List ℚ).map (fun v => clampSpec 6 ⌊v / 250⌋) ∧
      bin_val 0 250 6 = 0) :=
  ⟨by norm_num, by norm_num,
    C3_binner_floor_clip [0, 300, 600] 250 6 (by norm_num) (by norm_num)⟩

/-- C10: a strictly negative intensity value is clipped to category 0 by the
Binner (the negative bin index is forced to 0 rather than erroring). -/
theorem C10_negative_maps_to_zero (v : ℚ) (bin_width : ℚ) (max_category : ℤ)
    (hv : v < 0) (hbw : 0 < bin_width) (hmc : 0 ≤ max_category) :
    bin_val v bin_width max_category = 0 := by
  have hq : v / bin_width < 0 := div_neg_of_neg_of_pos hv hbw
  have hf : ⌊v / bin_width⌋ < 0 := by
    rw [Int.floor_lt]
    simpa using hq
  simp only [bin_val, np_clip]
  omega

theorem C10_negative_maps_to_zero_witness :
    (-5 : ℚ) < 0 ∧ (0 : ℚ) < 250 ∧ (0 : ℤ) ≤ 6 ∧ bin_val (-5) 250 6 = 0 :=
  ⟨by norm_num, by norm_num, by norm_num,
    C10_negative_maps_to_zero (-5) 250 6 (by norm_num) (by norm_num) (by norm_num)⟩

/-- C4: the Cumulative Tracker is a left-to-right scan whose output at `i`
is 0 where the mask is false and the previous running total plus the
current intensity where it is true (the first true index after a reset thus
reports exactly that index's intensity); on intensity `[100,100,0,50]` with
mask `[T,T,F,T]` it yields `[100,200,0,50]`. -/
theorem C4_cumulative_tracker :
    (∀ (values : List ℚ) (mask : List Bool), values.length = mask.length →
      (cumulative_reset values mask).length = values.length ∧
      ∀ i : ℕ, i < values.length →
        (cumulative_reset values mask).getD i 0 =
          if mask.getD i false then
            (if i = 0 then 0
             else (cumulative_reset values mask).getD (i - 1) 0) +
              values.getD i 0
          else 0) ∧
    cumulative_reset [100, 100, 0, 50] [true, true, false, true] =
      [100, 200, 0, 50] := by
  constructor
  · intro values mask hlen
    constructor
    · rw [cumulative_reset, cumulativeResetGo_length, hlen, min_self]
    · intro i hi
      exact cumulativeResetGo_getD values mask 0 i hlen hi
  · norm_num [cumulative_reset, cumulativeResetGo]

theorem C4_cumulative_tracker_witness :
    ([100, 50] : List ℚ).length = ([true, false] : List Bool).length ∧
    (0 : ℕ) < ([100, 50] : List ℚ).length ∧
    (cumulative_reset [100, 50] [true, false]).getD 0 0 =
      if ([true, false] : List Bool).getD 0 false then
        (if (0 : ℕ) = 0 then 0
         else (cumulative_reset [100, 50] [true, false]).getD (0 - 1) 0) +
          ([100, 50] : List ℚ).getD 0 0
      else 0 :=
  ⟨rfl, by norm_num,
    (C4_cumulative_tracker.1 [100, 50] [true, false] rfl).2 0 (by norm_num)⟩

/-- C8: in both four-output schemes, a zero final category at index `i`
forces both the cumulative intensity and the intensity-during-events output
to be zero at `i`. -/
theorem C8_zero_category_zero_outputs (ivt : List ℚ) (trh : ℕ) (bw : ℚ)
    (mc : ℤ) (i : ℕ) :
    ((Checkpoint.AR_categorization_scheme ivt trh bw mc).1[i]? = some 0 →
      (Checkpoint.AR_categorization_scheme ivt trh bw mc).2.1.getD i 0 = 0 ∧
      (Checkpoint.AR_categorization_scheme ivt trh bw mc).2.2.1.getD i 0 = 0) ∧
    ((Checkpoint.AR_categorization_evolution_scheme ivt trh bw mc).1[i]? = some 0 →
      (Checkpoint.AR_categorization_evolution_scheme ivt trh bw mc).2.1.getD i 0 = 0 ∧
      (Checkpoint.AR_categorization_evolution_scheme ivt trh bw mc).2.2.1.getD i 0 = 0) := by
  constructor
  · intro h
    simp only [Checkpoint.AR_categorization_scheme] at h ⊢
    exact mask_zero_outputs _ ivt i h
  · intro h
    simp only [Checkpoint.AR_categorization_evolution_scheme] at h ⊢
    exact mask_zero_outputs _ ivt i h

theorem C8_zero_category_zero_outputs_witness :
    (Checkpoint.AR_categorization_scheme [300, 300, 0] 6 250 6).1[0]? = some 0 ∧
    (Checkpoint.AR_categorization_scheme [300, 300, 0] 6 250 6).2.1.getD 0 0 = 0 ∧
    (Checkpoint.AR_categorization_scheme [300, 300, 0] 6 250 6).2.2.1.getD 0 0 = 0 := by
  have h0 : (Checkpoint.AR_categorization_scheme [300, 300, 0] 6 250 6).1[0]? = some 0 := by
    norm_num [Checkpoint.AR_categorization_scheme, Checkpoint._apply_duration_rule,
      bin_ivt, bin_val, np_clip, max_bounded_replace, runScan, mbrFlush, segMax,
      applyDurationCore, adrFlush, _adjust_segment, compute_steps_per_day]
  have h := (C8_zero_category_zero_outputs [300, 300, 0] 6 250 6 0).1 h0
  exact ⟨h0, h⟩

/-- C9: on the empty input both released schemes and both checkpoint
schemes return empty outputs, and on every input every output sequence has
the input's length (the embedded functions are total, so no run aborts). -/
theorem C9_empty_input_and_lengths (trh : ℕ) (bw : ℚ) (mc : ℤ) :
    AR_categorization_scheme [] trh bw mc = ([], []) ∧
    AR_categorization_evolution_scheme [] trh bw mc = ([], []) ∧
    Checkpoint.AR_categorization_scheme [] trh bw mc = ([], [], [], []) ∧
    Checkpoint.AR_categorization_evolution_scheme [] trh bw mc = ([], [], [], []) ∧
    ∀ ivt : List ℚ,
      ((AR_categorization_scheme ivt trh bw mc).1.length = ivt.length ∧
        (AR_categorization_scheme ivt trh bw mc).2.length = ivt.length) ∧
      ((AR_categorization_evolution_scheme ivt trh bw mc).1.length = ivt.length ∧
        (AR_categorization_evolution_scheme ivt trh bw mc).2.length = ivt.length) ∧
      ((Checkpoint.AR_categorization_scheme ivt trh bw mc).1.length = ivt.length ∧
        (Checkpoint.AR_categorization_scheme ivt trh bw mc).2.1.length = ivt.length ∧
        (Checkpoint.AR_categorization_scheme ivt trh bw mc).2.2.1.length = ivt.length ∧
        (Checkpoint.AR_categorization_scheme ivt trh bw mc).2.2.2.length = ivt.length) ∧
      ((Checkpoint.AR_categorization_evolution_scheme ivt trh bw mc).1.length = ivt.length ∧
        (Checkpoint.AR_categorization_evolution_scheme ivt trh bw mc).2.1.length = ivt.length ∧
        (Checkpoint.AR_categorization_evolution_scheme ivt trh bw mc).2.2.1.length = ivt.length ∧
        (Checkpoint.AR_categorization_evolution_scheme ivt trh bw mc).2.2.2.length = ivt.length) := by
  refine ⟨?_, ?_, ?_, ?_, ?_⟩
  · simp [AR_categorization_scheme, bin_ivt, max_bounded_replace, runScan_nil,
      mbrFlush_nil, _apply_duration_rule, applyDurationCore, adrFlush_nil,
      cumulative_reset, cumulativeResetGo]
  · simp [AR_categorization_evolution_scheme, bin_ivt, _apply_duration_rule,
      applyDurationCore, runScan_nil, adrFlush_nil, cumulative_reset,
      cumulativeResetGo]
  · simp [Checkpoint.AR_categorization_scheme, Checkpoint._apply_duration_rule,
      bin_ivt, max_bounded_replace, runScan_nil, mbrFlush_nil, applyDurationCore,
      adrFlush_nil, cumulative_reset, cumulativeResetGo, duration_seq,
      durFlush_nil]
  · simp [Checkpoint.AR_categorization_evolution_scheme,
      Checkpoint._apply_duration_rule, bin_ivt, applyDurationCore, runScan_nil,
      adrFlush_nil, cumulative_reset, cumulativeResetGo, duration_seq,
      durFlush_nil]
  · intro ivt
    have hbin : (bin_ivt ivt bw mc).length = ivt.length := by simp [bin_ivt]
    have hmbr : (max_bounded_replace (bin_ivt ivt bw mc)).length = ivt.length := by
      rw [max_bounded_replace_length, hbin]
    have hfin1 : (_apply_duration_rule (max_bounded_replace (bin_ivt ivt bw mc))
        (compute_steps_per_day trh) mc).length = ivt.length := by
      rw [apply_duration_rule_length, hmbr]
    have hfin2 : (_apply_duration_rule (bin_ivt ivt bw mc)
        (compute_steps_per_day trh) mc).length = ivt.length := by
      rw [apply_duration_rule_length, hbin]
    have hcum : ∀ final : List ℤ, final.length = ivt.length →
        (cumulative_reset ivt (final.map fun c => decide (0 < c))).length =
          ivt.length := by
      intro final hf
      rw [cumulative_reset, cumulativeResetGo_length]
      simp [hf]
    have hev : ∀ final : List ℤ, final.length = ivt.length →
        (List.zipWith (fun m v => if m then v else 0)
          (final.map fun c => decide (0 < c)) ivt).length = ivt.length := by
      intro final hf
      simp [hf]
    refine ⟨⟨?_, ?_⟩, ⟨?_, ?_⟩, ⟨?_, ?_, ?_, ?_⟩, ⟨?_, ?_, ?_, ?_⟩⟩
    · simpa [AR_categorization_scheme] using hfin1
    · simp only [AR_categorization_scheme]
      exact hcum _ hfin1
    · simpa [AR_categorization_evolution_scheme] using hfin2
    · simp only [AR_categorization_evolution_scheme]
      exact hcum _ hfin2
    · simp only [Checkpoint.AR_categorization_scheme,
        Checkpoint._apply_duration_rule, List.length_map,
        applyDurationCore_length]
      exact hmbr
    · simp only [Checkpoint.AR_categorization_scheme,
        Checkpoint._apply_duration_rule]
      exact hcum _ hfin1
    · simp only [Checkpoint.AR_categorization_scheme,
        Checkpoint._apply_duration_rule]
      exact hev _ hfin1
    · simp only [Checkpoint.AR_categorization_scheme,
        Checkpoint._apply_duration_rule]
      rw [duration_seq_length, hmbr]
    · simp only [Checkpoint.AR_categorization_evolution_scheme,
        Checkpoint._apply_duration_rule, List.length_map,
        applyDurationCore_length]
      exact hbin
    · simp only [Checkpoint.AR_categorization_evolution_scheme,
        Checkpoint._apply_duration_rule]
      exact hcum _ hfin2
    · simp only [Checkpoint.AR_categorization_evolution_scheme,
        Checkpoint._apply_duration_rule]
      exact hev _ hfin2
    · simp only [Checkpoint.AR_categorization_evolution_scheme,
        Checkpoint._apply_duration_rule]
      rw [duration_seq_length, hbin]

/-- C2: for a maximal nonzero run (the sequence is `p ++ run ++ s` with `p`
empty or ending in a zero and `s` empty or starting with a zero — `s = []`
covers a run that extends to the final index), every position of the run in
the duration-adjusted output equals the original value minus 1 when the
duration is under `steps_per_day`, plus 1 when it is at least
`2 * steps_per_day`, unchanged otherwise, then clipped into
`[0, max_category]`. -/
theorem C2_duration_rule (p run s : List ℤ) (spd : ℕ) (mc : ℤ)
    (hp : p = [] ∨ p.getLast? = some 0)
    (hrun : ∀ y ∈ run, y ≠ 0)
    (hs : s = [] ∨ s.head? = some 0)
    (j : ℕ) (hj : j < run.length) :
    (_apply_duration_rule (p ++ run ++ s) spd mc)[p.length + j]? =
      (run[j]?).map (fun v =>
        np_clip (if run.length < spd then v - 1
                 else if 2 * spd ≤ run.length then v + 1 else v) 0 mc) := by
  rw [_apply_duration_rule, applyDurationCore,
    runScan_decomp (adrFlush spd) 0 (adrFlush_nil spd) p run s hp hrun hs,
    List.getElem?_map]
  have hlp : (runScan (adrFlush spd) 0 [] p).length = p.length := by
    simpa using runScan_length (adrFlush spd) 0 (adrFlush_length spd) p []
  rw [List.append_assoc, List.getElem?_append_right (by omega)]
  have hidx : p.length + j - (runScan (adrFlush spd) 0 [] p).length = j := by
    rw [hlp]; omega
  rw [hidx, List.getElem?_append_left (by rw [adrFlush_length]; omega)]
  rw [adrFlush, _adjust_segment]
  split_ifs with h1 h2 <;>
    simp_all [List.getElem?_map, List.getElem?_eq_getElem hj]

theorem C2_duration_rule_witness :
    (_apply_duration_rule ([0] ++ [2, 2] ++ [0]) 4 6)[(1 : ℕ) + 0]? =
      (([2, 2] : List ℤ)[(0 : ℕ)]?).map (fun v =>
        np_clip (if ([2, 2] : List ℤ).length < 4 then v - 1
                 else if 2 * 4 ≤ ([2, 2] : List ℤ).length then v + 1 else v)
          0 6) :=
  C2_duration_rule [0] [2, 2] [0] 4 6 (Or.inr rfl) (by decide) (Or.inr rfl)
    0 (by norm_num)

/-- C5: the Peak Collapser preserves length; inside every maximal nonzero
run (the sequence is `p ++ run ++ s` as in the duration rule) each position
reads the run's maximum; zero positions pass through unchanged; the empty
input gives the empty output; a singleton sequence is a fixed point (in
particular a run of length 1 collapses to itself). -/
theorem C5_peak_collapser :
    (∀ l : List ℤ, (max_bounded_replace l).length = l.length) ∧
    (∀ p run s : List ℤ, (p = [] ∨ p.getLast? = some 0) →
      (∀ y ∈ run, y ≠ 0) → (s = [] ∨ s.head? = some 0) →
      ∀ j : ℕ, j < run.length →
        (max_bounded_replace (p ++ run ++ s))[p.length + j]? = run.max?) ∧
    (∀ (l : List ℤ) (i : ℕ), l[i]? = some 0 →
      (max_bounded_replace l)[i]? = some 0) ∧
    max_bounded_replace [] = [] ∧
    (∀ x : ℤ, max_bounded_replace [x] = [x]) := by
  refine ⟨max_bounded_replace_length, ?_, max_bounded_replace_zero_pos, rfl, ?_⟩
  · intro p run s hp hrun hs j hj
    rw [max_bounded_replace,
      runScan_decomp mbrFlush 0 mbrFlush_nil p run s hp hrun hs]
    have hlp : (runScan mbrFlush 0 [] p).length = p.length := by
      simpa using runScan_length mbrFlush 0 mbrFlush_length p []
    rw [List.append_assoc, List.getElem?_append_right (by omega)]
    have hidx : p.length + j - (runScan mbrFlush 0 [] p).length = j := by
      rw [hlp]; omega
    rw [hidx, List.getElem?_append_left (by rw [mbrFlush_length]; omega)]
    cases run with
    | nil => simp at hj
    | cons x t =>
      rw [mbrFlush]
      rw [List.getElem?_replicate]
      simp only [List.length_cons] at hj
      rw [if_pos (by omega)]
      rfl
  · intro x
    by_cases hx : x = 0
    · subst hx
      rw [show [(0 : ℤ)] = 0 :: ([] : List ℤ) from rfl,
        max_bounded_replace_zero_cons]
      rfl
    · rw [max_bounded_replace_run_cons x [] hx]
      simp [mbrFlush, segMax, max_bounded_replace, runScan_nil, mbrFlush_nil]

theorem C5_peak_collapser_witness :
    (max_bounded_replace [0, 1, 2, 0])[1]? = ([1, 2] : List ℤ).max? :=
  C5_peak_collapser.2.1 [0] [1, 2] [0] (Or.inr rfl) (by decide) (Or.inr rfl)
    0 (by norm_num)

/-- C6: the Peak Collapser is idempotent — collapsing an already collapsed
category sequence changes nothing. -/
theorem C6_collapse_idempotent :
    ∀ l : List ℤ, max_bounded_replace (max_bounded_replace l) =
      max_bounded_replace l := by
  intro l
  induction l using runs_induction with
  | h0 => rfl
  | hz t ih =>
    rw [max_bounded_replace_zero_cons, max_bounded_replace_zero_cons, ih]
  | hr x t hx ih =>
    rw [max_bounded_replace_run_cons x t hx]
    have hm : segMax x (t.takeWhile (fun y => y ≠ 0)) ≠ 0 := by
      rcases segMax_eq_or_mem (t.takeWhile (fun y => y ≠ 0)) x with h | h
      · rw [h]; exact hx
      · rw [show segMax x (t.takeWhile (fun y => y ≠ 0)) = _ from rfl]
        exact mem_takeWhile_ne t _ h
    have hshape : max_bounded_replace (t.dropWhile (fun y => y ≠ 0)) = [] ∨
        (max_bounded_replace (t.dropWhile (fun y => y ≠ 0))).head? = some 0 := by
      rcases dropWhile_ne_shape t with h | ⟨r, h⟩
      · left; rw [h]; rfl
      · right; rw [h, max_bounded_replace_zero_cons]; rfl
    have hrep : ∀ y ∈ List.replicate
        (t.takeWhile (fun y => y ≠ 0)).length.succ
        (segMax x (t.takeWhile (fun y => y ≠ 0))), y ≠ 0 := by
      intro y hy
      rw [List.eq_of_mem_replicate hy]
      exact hm
    rw [mbrFlush]
    nth_rewrite 1 [max_bounded_replace]
    rw [runScan_run_rest mbrFlush 0 mbrFlush_nil _ _ [] hrep hshape,
      List.nil_append]
    rw [show (t.takeWhile (fun y => y ≠ 0)).length.succ =
      (t.takeWhile (fun y => y ≠ 0)).length + 1 from rfl, mbrFlush_replicate]
    rw [show runScan mbrFlush 0 []
        (max_bounded_replace (t.dropWhile (fun y => y ≠ 0))) =
      max_bounded_replace (max_bounded_replace (t.dropWhile (fun y => y ≠ 0)))
        from rfl, ih]

theorem np_clip_bounds (v mc : ℤ) (hmc : 0 ≤ mc) :
    0 ≤ np_clip v 0 mc ∧ np_clip v 0 mc ≤ mc := by
  simp only [np_clip]
  omega

theorem apply_duration_rule_mem_bounds (l : List ℤ) (spd : ℕ) (mc : ℤ)
    (hmc : 0 ≤ mc) :
    ∀ c ∈ _apply_duration_rule l spd mc, 0 ≤ c ∧ c ≤ mc := by
  intro c hc
  rw [_apply_duration_rule] at hc
  obtain ⟨v, _, rfl⟩ := List.mem_map.mp hc
  exact np_clip_bounds v mc hmc

theorem bin_ivt_mem_bounds (ivt : List ℚ) (bw : ℚ) (mc : ℤ) (hmc : 0 ≤ mc) :
    ∀ c ∈ bin_ivt ivt bw mc, 0 ≤ c ∧ c ≤ mc := by
  intro c hc
  rw [bin_ivt] at hc
  obtain ⟨v, _, rfl⟩ := List.mem_map.mp hc
  exact np_clip_bounds _ mc hmc

/-- C7: with a valid configuration (`max_category ≥ 0`), every category
value lies in `[0, max_category]` after every pipeline stage — after
binning, after peak collapse, and in the final category output of all four
scheme entry points. -/
theorem C7_category_bounds (ivt : List ℚ) (trh : ℕ) (bw : ℚ) (mc : ℤ)
    (hmc : 0 ≤ mc) :
    (∀ c ∈ bin_ivt ivt bw mc, 0 ≤ c ∧ c ≤ mc) ∧
    (∀ c ∈ max_bounded_replace (bin_ivt ivt bw mc), 0 ≤ c ∧ c ≤ mc) ∧
    (∀ c ∈ (AR_categorization_scheme ivt trh bw mc).1, 0 ≤ c ∧ c ≤ mc) ∧
    (∀ c ∈ (AR_categorization_evolution_scheme ivt trh bw mc).1,
      0 ≤ c ∧ c ≤ mc) ∧
    (∀ c ∈ (Checkpoint.AR_categorization_scheme ivt trh bw mc).1,
      0 ≤ c ∧ c ≤ mc) ∧
    (∀ c ∈ (Checkpoint.AR_categorization_evolution_scheme ivt trh bw mc).1,
      0 ≤ c ∧ c ≤ mc) := by
  refine ⟨bin_ivt_mem_bounds ivt bw mc hmc, ?_, ?_, ?_, ?_, ?_⟩
  · intro c hc
    rcases max_bounded_replace_mem _ c hc with rfl | h
    · exact ⟨le_refl 0, hmc⟩
    · exact bin_ivt_mem_bounds ivt bw mc hmc c h
  · intro c hc
    simp only [AR_categorization_scheme] at hc
    exact apply_duration_rule_mem_bounds _ _ mc hmc c hc
  · intro c hc
    simp only [AR_categorization_evolution_scheme] at hc
    exact apply_duration_rule_mem_bounds _ _ mc hmc c hc
  · intro c hc
    simp only [Checkpoint.AR_categorization_scheme,
      Checkpoint._apply_duration_rule] at hc
    obtain ⟨v, _, rfl⟩ := List.mem_map.mp hc
    exact np_clip_bounds v mc hmc
  · intro c hc
    simp only [Checkpoint.AR_categorization_evolution_scheme,
      Checkpoint._apply_duration_rule] at hc
    obtain ⟨v, _, rfl⟩ := List.mem_map.mp hc
    exact np_clip_bounds v mc hmc

theorem C7_category_bounds_witness :
    (1 : ℤ) ∈ bin_ivt [300] 250 6 ∧ (0 ≤ (1 : ℤ) ∧ (1 : ℤ) ≤ 6) := by
  have hmem : (1 : ℤ) ∈ bin_ivt [300] 250 6 := by
    norm_num [bin_ivt, bin_val, np_clip]
  exact ⟨hmem, (C7_category_bounds [300] 6 250 6 (by norm_num)).1 1 hmem⟩

/-- C1: on input `[300, 300, 0]` with the default configuration, the two
scheme functions released in `src/arcat/core.py` return only two sequences
`(final_categories, cumulative_ivt)` — not four — while the checkpoint
variants (which the repository's tests unpack) return the four parallel
sequences `(final, cumulative, ivt_event, duration_event)`, each of the
input's length. -/
theorem C1_scheme_output_arity :
    AR_categorization_scheme [300, 300, 0] 6 250 6 = ([0, 0, 0], [0, 0, 0]) ∧
    AR_categorization_evolution_scheme [300, 300, 0] 6 250 6 =
      ([0, 0, 0], [0, 0, 0]) ∧
    Checkpoint.AR_categorization_scheme [300, 300, 0] 6 250 6 =
      ([0, 0, 0], [0, 0, 0], [0, 0, 0], [2, 2, 0]) ∧
    Checkpoint.AR_categorization_evolution_scheme [300, 300, 0] 6 250 6 =
      ([0, 0, 0], [0, 0, 0], [0, 0, 0], [2, 2, 0]) := by
  refine ⟨?_, ?_, ?_, ?_⟩ <;>
    norm_num [AR_categorization_scheme, AR_categorization_evolution_scheme,
      Checkpoint.AR_categorization_scheme,
      Checkpoint.AR_categorization_evolution_scheme,
      Checkpoint._apply_duration_rule, bin_ivt, bin_val, np_clip,
      max_bounded_replace, runScan, mbrFlush, segMax, _apply_duration_rule,
      applyDurationCore, adrFlush, _adjust_segment, compute_steps_per_day,
      cumulative_reset, cumulativeResetGo, duration_seq, durFlush,
      List.replicate_succ]
